import Mathlib

/-!
Verification of the binomial heap in src/lib.rs (primary, a max-first heap)
and the min-first variant in src/main.rs.

Modelling conventions:
a Rust VecDeque is modelled as a Lean List whose HEAD is the BACK of the
deque, because the code accesses deques almost exclusively at the back
(pop_back, push_back, back).  Thus
- pop_back   = pattern matching on the head,
- push_back  = cons,
- back       = head?,
- front-to-back iteration order (iter, Display) = the reversed list.
Rust u16 ranks are modelled as Nat (ranks only ever grow by one per link,
and a rank of 65536 would need more nodes than any memory holds, so wrap
around is unreachable).  Rust i32 values are modelled as Int: the code
only compares values, never does arithmetic on them, so overflow cannot
occur.  usize sums in len are modelled as Nat.
-/

namespace Binomial

/-- NodeData from src/lib.rs: rank, value and the deque of children
(children stored back-first, see the module comment). -/
inductive Node : Type where
  | mk : Nat → Int → List Node → Node

def Node.rank : Node → Nat
  | ⟨r, _, _⟩ => r

def Node.value : Node → Int
  | ⟨_, v, _⟩ => v

def Node.nodes : Node → List Node
  | ⟨_, _, ns⟩ => ns

/-- combine from src/lib.rs.  The source reads
if h1.value >= h2.value then winner h1 (rank += 1, push_back h2) else
combine(h2, h1); the else branch immediately takes the then branch of the
swapped call (h2.value > h1.value there), so it is unfolded here once. -/
def combine (h1 h2 : Node) : Node :=
  if h1.value ≥ h2.value then ⟨h1.rank + 1, h1.value, h2 :: h1.nodes⟩
  else ⟨h2.rank + 1, h2.value, h1 :: h2.nodes⟩

/-- merge_nodes from src/lib.rs.  The Rust loop pushes popped elements
into result only while one side is already empty, so once both sides are
non-empty the current iteration is the last one and the function can be
written as plain recursion.  Draining the recursive result with
pop_back/push_back reverses it, hence the .reverse on recursive calls.
The match on h1.rank.cmp(&h2.rank) is rendered as a three-way if.
a.back().map(rank).unwrap_or(0) is the rank of the next back element of
the deque after the pop, or 0 for an empty deque. -/
def mergeNodes (a b : List Node) : List Node :=
  match a, b with
  | [], b => b.reverse
  | a, [] => a.reverse
  | h1 :: as_, h2 :: bs =>
    if h1.rank = h2.rank then
      let merged := combine h1 h2
      let r := merged.rank
      let ra := match as_ with | [] => 0 | n :: _ => n.rank
      let rb := match bs with | [] => 0 | n :: _ => n.rank
      if r ≠ ra then
        if r ≠ rb then merged :: (mergeNodes as_ bs).reverse
        else (mergeNodes (merged :: as_) bs).reverse
      else
        if r ≠ rb then (mergeNodes as_ (merged :: bs)).reverse
        else merged :: (mergeNodes as_ bs).reverse
    else if h1.rank < h2.rank then
      h1 :: (mergeNodes as_ (h2 :: bs)).reverse
    else
      h2 :: (mergeNodes bs (h1 :: as_)).reverse
termination_by a.length + b.length
decreasing_by
  all_goals simp [List.length_cons]
  all_goals omega

/-- BinomialHeap from src/lib.rs; heads stored back-first. -/
structure BinomialHeap : Type where
  heads : List Node

namespace BinomialHeap

/-- BinomialHeap::new from src/lib.rs: it takes no argument. -/
def new : BinomialHeap := ⟨[]⟩

/-- BinomialHeap::push from src/lib.rs. -/
def push (hp : BinomialHeap) (value : Int) : BinomialHeap :=
  ⟨mergeNodes hp.heads [⟨0, value, []⟩]⟩

/-- The index scan of BinomialHeap::pop: min_idx starts at 0 and is
replaced by i whenever the node at i has a strictly greater value than
the current best.  l is the not-yet-visited part of the front-to-back
root list, i the index of its first element, bestV the value at index
best. -/
def bestOf : List Node → Nat → Int → Nat → Nat
  | [], best, _, _ => best
  | n :: t, best, bestV, i =>
    if n.value > bestV then bestOf t i n.value (i + 1)
    else bestOf t best bestV (i + 1)

/-- BinomialHeap::pop from src/lib.rs.  The scan and remove(min_idx) work
on the front-to-back view, i.e. the reversed back-first list. -/
def pop (hp : BinomialHeap) : Option Int × BinomialHeap :=
  match hp.heads with
  | [] => (none, hp)
  | _ :: _ =>
    let fr := hp.heads.reverse
    let idx := match fr with
      | [] => 0
      | h0 :: rest => bestOf rest 0 h0.value 1
    let nd := fr.getD idx ⟨0, 0, []⟩
    (some nd.value, ⟨mergeNodes ((fr.eraseIdx idx).reverse) nd.nodes⟩)

/-- Iterator::max over the mapped values: none on an empty list,
otherwise the maximum. -/
def listMax : List Int → Option Int
  | [] => none
  | v :: t => some (t.foldl max v)

/-- BinomialHeap::peek from src/lib.rs: the maximum root value. -/
def peek (hp : BinomialHeap) : Option Int :=
  listMax (hp.heads.reverse.map Node.value)

/-- BinomialHeap::is_empty from src/lib.rs. -/
def isEmpty (hp : BinomialHeap) : Bool :=
  hp.heads.isEmpty

/-- BinomialHeap::len from src/lib.rs: fold over the roots in iteration
order, adding 1 for a rank-0 root and 2 << (rank - 1) otherwise. -/
def len (hp : BinomialHeap) : Nat :=
  hp.heads.reverse.foldl
    (fun sz n => match n.rank with | 0 => sz + 1 | x => sz + (2 <<< (x - 1)))
    0

/-- BinomialHeap::merge from src/lib.rs: self.heads becomes the merge of
the two root lists; other is consumed. -/
def merge (hp other : BinomialHeap) : BinomialHeap :=
  ⟨mergeNodes hp.heads other.heads⟩

end BinomialHeap

/-- Building a heap by pushing the values of a list in order, starting
from the empty heap. -/
def pushAll (vs : List Int) : BinomialHeap :=
  vs.foldl BinomialHeap.push BinomialHeap.new

/-- Popping n times, collecting the returned values; popping an already
empty heap contributes nothing. -/
def popSeq : Nat → BinomialHeap → List Int
  | 0, _ => []
  | n + 1, hp =>
    match hp.pop with
    | (none, _) => []
    | (some v, hp2) => v :: popSeq n hp2

/-- The root ranks in front-to-back deque order. -/
def rootRanks (hp : BinomialHeap) : List Nat :=
  hp.heads.reverse.map Node.rank

/-! ### The values stored in a tree / forest -/

mutual

/-- All values stored in a tree. -/
def vals : Node → List Int
  | ⟨_, v, cs⟩ => v :: valsL cs

/-- All values stored in a forest. -/
def valsL : List Node → List Int
  | [] => []
  | n :: ns => vals n ++ valsL ns

end

/-- The multiset of values of a forest. -/
def mvals (l : List Node) : Multiset Int := (valsL l : Multiset Int)

/-- The multiset of values of a heap. -/
def BinomialHeap.mvals (hp : BinomialHeap) : Multiset Int :=
  Binomial.mvals hp.heads

mutual

/-- Max-heap order: every value in the tree is at most the root value. -/
def ordered : Node → Bool
  | ⟨_, v, cs⟩ => orderedL v cs

/-- All trees of the list are ordered and have root values at most v. -/
def orderedL : Int → List Node → Bool
  | _, [] => true
  | v, c :: cs => (decide (c.value ≤ v)) && ordered c && orderedL v cs

end

/-- All trees of a forest are heap-ordered. -/
def orderedF (l : List Node) : Bool := l.all ordered

mutual

/-- Binomial shape: a node of rank r has children of ranks
r-1, ..., 1, 0 in back-first order (0, ..., r-1 front-to-back). -/
def shaped : Node → Bool
  | ⟨r, _, cs⟩ => (decide (cs.map Node.rank = (List.range r).reverse)) && shapedL cs

/-- All trees of the list are binomial-shaped. -/
def shapedL : List Node → Bool
  | [] => true
  | c :: cs => shaped c && shapedL cs

end

/-! ### Basic lemmas about values -/

@[simp] theorem vals_mk (r : Nat) (v : Int) (cs : List Node) :
    vals ⟨r, v, cs⟩ = v :: valsL cs := by
  rw [vals]

@[simp] theorem valsL_nil : valsL [] = [] := by rw [valsL]

@[simp] theorem valsL_cons (n : Node) (ns : List Node) :
    valsL (n :: ns) = vals n ++ valsL ns := by
  rw [valsL]

theorem valsL_append (l1 l2 : List Node) :
    valsL (l1 ++ l2) = valsL l1 ++ valsL l2 := by
  induction l1 with
  | nil => simp
  | cons n ns ih => simp [ih]

theorem mvals_append (l1 l2 : List Node) :
    mvals (l1 ++ l2) = mvals l1 + mvals l2 := by
  simp [mvals, valsL_append]

@[simp] theorem mvals_reverse (l : List Node) :
    mvals l.reverse = mvals l := by
  induction l with
  | nil => rfl
  | cons n ns ih =>
    rw [List.reverse_cons, mvals_append, ih]
    simp only [mvals, valsL_cons, valsL_nil, List.append_nil]
    rw [add_comm]
    simp [← Multiset.coe_add]

@[simp] theorem mvals_nil : mvals [] = 0 := rfl

@[simp] theorem mvals_cons (n : Node) (ns : List Node) :
    mvals (n :: ns) = (vals n : Multiset Int) + mvals ns := by
  simp [mvals]

theorem vals_ne_nil (n : Node) : vals n ≠ [] := by
  cases n with
  | mk r v cs => simp

theorem valsL_eq_nil (l : List Node) : valsL l = [] ↔ l = [] := by
  cases l with
  | nil => simp
  | cons n ns =>
    simp only [valsL_cons, List.append_eq_nil]
    exact ⟨fun h => absurd h.1 (vals_ne_nil n), fun h => by simp at h⟩

theorem value_mem_vals (n : Node) : n.value ∈ vals n := by
  cases n with
  | mk r v cs => simp [Node.value]

theorem combine_mvals (h1 h2 : Node) :
    (vals (combine h1 h2) : Multiset Int) = (vals h1 : Multiset Int) + (vals h2 : Multiset Int) := by
  cases h1 with
  | mk r1 v1 cs1 =>
    cases h2 with
    | mk r2 v2 cs2 =>
      simp only [combine, Node.value, Node.rank, Node.nodes]
      split
      · simp only [vals_mk, valsL_cons, valsL_append]
        simp [← Multiset.cons_coe, ← Multiset.coe_add, ← Multiset.singleton_add]
        abel
      · simp only [vals_mk, valsL_cons, valsL_append]
        simp [← Multiset.cons_coe, ← Multiset.coe_add, ← Multiset.singleton_add]
        abel

/-! ### Unfolding equations for mergeNodes -/

theorem mergeNodes_nil_left (b : List Node) : mergeNodes [] b = b.reverse := by
  cases b with
  | nil => rw [mergeNodes.eq_def]
  | cons h t => rw [mergeNodes.eq_def]

theorem mergeNodes_nil_right (a : List Node) : mergeNodes a [] = a.reverse := by
  cases a with
  | nil => rw [mergeNodes.eq_def]
  | cons h t => rw [mergeNodes.eq_def]

/-- The rank a.back().map(rank).unwrap_or(0) of the next back element. -/
def backRank : List Node → Nat
  | [] => 0
  | n :: _ => n.rank

theorem mergeNodes_cons_cons (h1 : Node) (as_ : List Node) (h2 : Node) (bs : List Node) :
    mergeNodes (h1 :: as_) (h2 :: bs) =
      if h1.rank = h2.rank then
        (if (combine h1 h2).rank ≠ backRank as_ then
           (if (combine h1 h2).rank ≠ backRank bs then
              combine h1 h2 :: (mergeNodes as_ bs).reverse
            else (mergeNodes (combine h1 h2 :: as_) bs).reverse)
         else
           (if (combine h1 h2).rank ≠ backRank bs then
              (mergeNodes as_ (combine h1 h2 :: bs)).reverse
            else combine h1 h2 :: (mergeNodes as_ bs).reverse))
      else if h1.rank < h2.rank then h1 :: (mergeNodes as_ (h2 :: bs)).reverse
      else h2 :: (mergeNodes bs (h1 :: as_)).reverse := by
  rw [mergeNodes.eq_def]
  cases as_ with
  | nil => cases bs with
    | nil => rfl
    | cons x xs => rfl
  | cons y ys => cases bs with
    | nil => rfl
    | cons x xs => rfl

/-- mergeNodes never loses or duplicates a value: the result holds
exactly the multiset union of the values of the two inputs. -/
theorem mergeNodes_mvals (a b : List Node) :
    mvals (mergeNodes a b) = mvals a + mvals b := by
  induction a, b using mergeNodes.induct with
  | case1 b => simp [mergeNodes_nil_left]
  | case2 a h => simp [mergeNodes_nil_right]
  | case3 h1 as_ h2 bs heq merged r ra rb hra hrb ih =>
    rw [mergeNodes_cons_cons, if_pos heq,
        if_pos (show (combine h1 h2).rank ≠ backRank as_ from hra),
        if_pos (show (combine h1 h2).rank ≠ backRank bs from hrb)]
    simp only [mvals_cons, mvals_reverse, ih, combine_mvals]
    abel
  | case4 h1 as_ h2 bs heq merged r ra rb hra hrb ih =>
    rw [mergeNodes_cons_cons, if_pos heq,
        if_pos (show (combine h1 h2).rank ≠ backRank as_ from hra),
        if_neg (show ¬(combine h1 h2).rank ≠ backRank bs from hrb)]
    have hm : (vals merged : Multiset Int) = (vals h1 : Multiset Int) + (vals h2 : Multiset Int) :=
      combine_mvals h1 h2
    simp only [mvals_reverse, ih, mvals_cons, hm]
    abel
  | case5 h1 as_ h2 bs heq merged r ra rb hra hrb ih =>
    rw [mergeNodes_cons_cons, if_pos heq,
        if_neg (show ¬(combine h1 h2).rank ≠ backRank as_ from hra),
        if_pos (show (combine h1 h2).rank ≠ backRank bs from hrb)]
    have hm : (vals merged : Multiset Int) = (vals h1 : Multiset Int) + (vals h2 : Multiset Int) :=
      combine_mvals h1 h2
    simp only [mvals_reverse, ih, mvals_cons, hm]
    abel
  | case6 h1 as_ h2 bs heq merged r ra rb hra hrb ih =>
    rw [mergeNodes_cons_cons, if_pos heq,
        if_neg (show ¬(combine h1 h2).rank ≠ backRank as_ from hra),
        if_neg (show ¬(combine h1 h2).rank ≠ backRank bs from hrb)]
    simp only [mvals_cons, mvals_reverse, ih, combine_mvals]
    abel
  | case7 h1 as_ h2 bs hne hlt ih =>
    rw [mergeNodes_cons_cons, if_neg hne, if_pos hlt]
    simp only [mvals_cons, mvals_reverse, ih]
    abel
  | case8 h1 as_ h2 bs hne hge ih =>
    rw [mergeNodes_cons_cons, if_neg hne, if_neg hge]
    simp only [mvals_cons, mvals_reverse, ih]
    abel

/-! ### Accessor and predicate simp lemmas -/

@[simp] theorem Node.rank_mk (r : Nat) (v : Int) (cs : List Node) :
    Node.rank ⟨r, v, cs⟩ = r := rfl

@[simp] theorem Node.value_mk (r : Nat) (v : Int) (cs : List Node) :
    Node.value ⟨r, v, cs⟩ = v := rfl

@[simp] theorem Node.nodes_mk (r : Nat) (v : Int) (cs : List Node) :
    Node.nodes ⟨r, v, cs⟩ = cs := rfl

@[simp] theorem ordered_mk (r : Nat) (v : Int) (cs : List Node) :
    ordered ⟨r, v, cs⟩ = orderedL v cs := by
  rw [ordered]

@[simp] theorem orderedL_nil (v : Int) : orderedL v [] = true := by rw [orderedL]

@[simp] theorem orderedL_cons (v : Int) (c : Node) (cs : List Node) :
    orderedL v (c :: cs) = ((decide (c.value ≤ v)) && ordered c && orderedL v cs) := by
  rw [orderedL]

@[simp] theorem shaped_mk (r : Nat) (v : Int) (cs : List Node) :
    shaped ⟨r, v, cs⟩ =
      ((decide (cs.map Node.rank = (List.range r).reverse)) && shapedL cs) := by
  rw [shaped]

@[simp] theorem shapedL_nil : shapedL [] = true := by rw [shapedL]

@[simp] theorem shapedL_cons (c : Node) (cs : List Node) :
    shapedL (c :: cs) = (shaped c && shapedL cs) := by
  rw [shapedL]

theorem shapedL_iff (l : List Node) :
    shapedL l = true ↔ ∀ n ∈ l, shaped n = true := by
  induction l with
  | nil => simp
  | cons c cs ih => simp [ih]

theorem orderedF_iff (l : List Node) :
    orderedF l = true ↔ ∀ n ∈ l, ordered n = true := by
  simp [orderedF, List.all_eq_true]

/-! ### combine preserves heap order and binomial shape -/

theorem combine_rank_of_eq (h1 h2 : Node) (h : h1.rank = h2.rank) :
    (combine h1 h2).rank = h1.rank + 1 := by
  cases h1 with
  | mk r1 v1 cs1 =>
    cases h2 with
    | mk r2 v2 cs2 =>
      simp only [Node.rank_mk] at h
      simp [combine, h]
      split <;> simp

theorem combine_ordered (h1 h2 : Node)
    (o1 : ordered h1 = true) (o2 : ordered h2 = true) :
    ordered (combine h1 h2) = true := by
  cases h1 with
  | mk r1 v1 cs1 =>
    cases h2 with
    | mk r2 v2 cs2 =>
      simp only [ordered_mk] at o1 o2
      simp only [combine, Node.value_mk, Node.rank_mk, Node.nodes_mk]
      split
      · rename_i hge
        simp only [ordered_mk, orderedL_cons, Node.value_mk, Bool.and_eq_true,
          decide_eq_true_eq]
        exact ⟨⟨hge, o2⟩, o1⟩
      · rename_i hlt
        simp only [ge_iff_le, not_le] at hlt
        simp only [ordered_mk, orderedL_cons, Node.value_mk, Bool.and_eq_true,
          decide_eq_true_eq]
        exact ⟨⟨le_of_lt hlt, o1⟩, o2⟩

theorem combine_shaped (h1 h2 : Node) (h : h1.rank = h2.rank)
    (s1 : shaped h1 = true) (s2 : shaped h2 = true) :
    shaped (combine h1 h2) = true := by
  cases h1 with
  | mk r1 v1 cs1 =>
    cases h2 with
    | mk r2 v2 cs2 =>
      simp only [Node.rank_mk] at h
      subst h
      simp only [shaped_mk, Bool.and_eq_true, decide_eq_true_eq] at s1 s2
      simp only [combine, Node.value_mk, Node.rank_mk, Node.nodes_mk]
      split
      · simp [List.range_succ, s1.1, s1.2, s2.1, s2.2]
      · simp [List.range_succ, s1.1, s1.2, s2.1, s2.2]

/-- Every tree of the merged forest satisfies any property that all
input trees satisfy and that combine preserves on equal-rank trees. -/
theorem mergeNodes_all (P : Node → Prop)
    (hP : ∀ x y, x.rank = y.rank → P x → P y → P (combine x y)) :
    ∀ a b, (∀ n ∈ a, P n) → (∀ n ∈ b, P n) → ∀ n ∈ mergeNodes a b, P n := by
  intro a b
  induction a, b using mergeNodes.induct with
  | case1 b =>
    intro ha hb
    rw [mergeNodes_nil_left]
    intro n hn
    exact hb n (List.mem_reverse.mp hn)
  | case2 a h =>
    intro ha hb
    rw [mergeNodes_nil_right]
    intro n hn
    exact ha n (List.mem_reverse.mp hn)
  | case3 h1 as_ h2 bs heq merged r ra rb hra hrb ih =>
    intro ha hb
    rw [mergeNodes_cons_cons, if_pos heq,
        if_pos (show (combine h1 h2).rank ≠ backRank as_ from hra),
        if_pos (show (combine h1 h2).rank ≠ backRank bs from hrb)]
    intro n hn
    rcases List.mem_cons.mp hn with hn | hn
    · subst hn
      exact hP h1 h2 heq (ha h1 (List.mem_cons_self _ _)) (hb h2 (List.mem_cons_self _ _))
    · exact ih (fun m hm => ha m (List.mem_cons_of_mem _ hm))
        (fun m hm => hb m (List.mem_cons_of_mem _ hm)) n (List.mem_reverse.mp hn)
  | case4 h1 as_ h2 bs heq merged r ra rb hra hrb ih =>
    intro ha hb
    rw [mergeNodes_cons_cons, if_pos heq,
        if_pos (show (combine h1 h2).rank ≠ backRank as_ from hra),
        if_neg (show ¬(combine h1 h2).rank ≠ backRank bs from hrb)]
    intro n hn
    refine ih (fun m hm => ?_) (fun m hm => hb m (List.mem_cons_of_mem _ hm)) n
      (List.mem_reverse.mp hn)
    rcases List.mem_cons.mp hm with hm | hm
    · subst hm
      exact hP h1 h2 heq (ha h1 (List.mem_cons_self _ _)) (hb h2 (List.mem_cons_self _ _))
    · exact ha m (List.mem_cons_of_mem _ hm)
  | case5 h1 as_ h2 bs heq merged r ra rb hra hrb ih =>
    intro ha hb
    rw [mergeNodes_cons_cons, if_pos heq,
        if_neg (show ¬(combine h1 h2).rank ≠ backRank as_ from hra),
        if_pos (show (combine h1 h2).rank ≠ backRank bs from hrb)]
    intro n hn
    refine ih (fun m hm => ha m (List.mem_cons_of_mem _ hm)) (fun m hm => ?_) n
      (List.mem_reverse.mp hn)
    rcases List.mem_cons.mp hm with hm | hm
    · subst hm
      exact hP h1 h2 heq (ha h1 (List.mem_cons_self _ _)) (hb h2 (List.mem_cons_self _ _))
    · exact hb m (List.mem_cons_of_mem _ hm)
  | case6 h1 as_ h2 bs heq merged r ra rb hra hrb ih =>
    intro ha hb
    rw [mergeNodes_cons_cons, if_pos heq,
        if_neg (show ¬(combine h1 h2).rank ≠ backRank as_ from hra),
        if_neg (show ¬(combine h1 h2).rank ≠ backRank bs from hrb)]
    intro n hn
    rcases List.mem_cons.mp hn with hn | hn
    · subst hn
      exact hP h1 h2 heq (ha h1 (List.mem_cons_self _ _)) (hb h2 (List.mem_cons_self _ _))
    · exact ih (fun m hm => ha m (List.mem_cons_of_mem _ hm))
        (fun m hm => hb m (List.mem_cons_of_mem _ hm)) n (List.mem_reverse.mp hn)
  | case7 h1 as_ h2 bs hne hlt ih =>
    intro ha hb
    rw [mergeNodes_cons_cons, if_neg hne, if_pos hlt]
    intro n hn
    rcases List.mem_cons.mp hn with hn | hn
    · cases hn
      exact ha h1 (List.mem_cons_self _ _)
    · exact ih (fun m hm => ha m (List.mem_cons_of_mem _ hm)) hb n
        (List.mem_reverse.mp hn)
  | case8 h1 as_ h2 bs hne hge ih =>
    intro ha hb
    rw [mergeNodes_cons_cons, if_neg hne, if_neg hge]
    intro n hn
    rcases List.mem_cons.mp hn with hn | hn
    · cases hn
      exact hb h2 (List.mem_cons_self _ _)
    · exact ih (fun m hm => hb m (List.mem_cons_of_mem _ hm)) ha n
        (List.mem_reverse.mp hn)

/-- mergeNodes preserves heap order of all trees. -/
theorem mergeNodes_ordered (a b : List Node)
    (ha : ∀ n ∈ a, ordered n = true) (hb : ∀ n ∈ b, ordered n = true) :
    ∀ n ∈ mergeNodes a b, ordered n = true :=
  mergeNodes_all (fun n => ordered n = true)
    (fun x y _ ox oy => combine_ordered x y ox oy) a b ha hb

/-- mergeNodes preserves binomial shape of all trees. -/
theorem mergeNodes_shaped (a b : List Node)
    (ha : ∀ n ∈ a, shaped n = true) (hb : ∀ n ∈ b, shaped n = true) :
    ∀ n ∈ mergeNodes a b, shaped n = true :=
  mergeNodes_all (fun n => shaped n = true) combine_shaped a b ha hb

/-! ### Heap order bounds every value by the root value -/

mutual

theorem ordered_vals_le : ∀ (n : Node), ordered n = true → ∀ w ∈ vals n, w ≤ n.value
  | ⟨r, v, cs⟩ => by
    intro h w hw
    simp only [ordered_mk] at h
    simp only [vals_mk, List.mem_cons] at hw
    simp only [Node.value_mk]
    rcases hw with rfl | hw
    · exact le_refl w
    · exact orderedL_vals_le v cs h w hw

theorem orderedL_vals_le : ∀ (v : Int) (l : List Node),
    orderedL v l = true → ∀ w ∈ valsL l, w ≤ v
  | _, [] => by simp
  | v, c :: cs => by
    intro h w hw
    simp only [orderedL_cons, Bool.and_eq_true, decide_eq_true_eq] at h
    simp only [valsL_cons, List.mem_append] at hw
    rcases hw with hw | hw
    · exact le_trans (ordered_vals_le c h.1.2 w hw) h.1.1
    · exact orderedL_vals_le v cs h.2 w hw

end

/-- In a forest of heap-ordered trees every value is bounded by some
root value. -/
theorem valsL_le_root (l : List Node) (h : ∀ n ∈ l, ordered n = true) :
    ∀ w ∈ valsL l, ∃ n ∈ l, w ≤ n.value := by
  induction l with
  | nil => simp
  | cons c cs ih =>
    intro w hw
    simp only [valsL_cons, List.mem_append] at hw
    rcases hw with hw | hw
    · exact ⟨c, List.mem_cons_self _ _,
        ordered_vals_le c (h c (List.mem_cons_self _ _)) w hw⟩
    · obtain ⟨n, hn, hle⟩ := ih (fun m hm => h m (List.mem_cons_of_mem _ hm)) w hw
      exact ⟨n, List.mem_cons_of_mem _ hn, hle⟩

/-! ### Specification of the pop scan and of listMax -/

theorem foldl_max_mem (t : List Int) (v : Int) : t.foldl max v ∈ v :: t := by
  induction t generalizing v with
  | nil => simp
  | cons x xs ih =>
    simp only [List.foldl_cons]
    rcases List.mem_cons.mp (ih (max v x)) with h | h
    · rcases max_choice v x with hm | hm
      · rw [h, hm]; exact List.mem_cons_self _ _
      · rw [h, hm]; exact List.mem_cons_of_mem _ (List.mem_cons_self _ _)
    · exact List.mem_cons_of_mem _ (List.mem_cons_of_mem _ h)

theorem foldl_max_ge_init (t : List Int) (v : Int) : v ≤ t.foldl max v := by
  induction t generalizing v with
  | nil => simp
  | cons x xs ih => exact le_trans (le_max_left v x) (ih (max v x))

theorem foldl_max_ge (t : List Int) (v : Int) : ∀ x ∈ t, x ≤ t.foldl max v := by
  induction t generalizing v with
  | nil => simp
  | cons y ys ih =>
    intro x hx
    rcases List.mem_cons.mp hx with rfl | hx
    · exact le_trans (le_max_right v x) (foldl_max_ge_init ys (max v x))
    · exact ih (max v y) x hx

theorem listMax_spec (v : Int) (t : List Int) :
    ∃ m, BinomialHeap.listMax (v :: t) = some m ∧ m ∈ v :: t ∧
      ∀ x ∈ v :: t, x ≤ m := by
  refine ⟨t.foldl max v, rfl, foldl_max_mem t v, ?_⟩
  intro x hx
  rcases List.mem_cons.mp hx with rfl | hx
  · exact foldl_max_ge_init t x
  · exact foldl_max_ge t v x hx

@[simp] theorem listMax_nil : BinomialHeap.listMax [] = none := rfl

theorem getD_of_lt {α : Type} (l : List α) (d : α) :
    ∀ i, (h : i < l.length) → l.getD i d = l.get ⟨i, h⟩ := by
  induction l with
  | nil => intro i h; simp at h
  | cons x xs ih =>
    intro i h
    cases i with
    | zero => rfl
    | succ j => exact ih j (by simpa using h)

theorem bestOf_spec (g : Nat → Int) :
    ∀ (l : List Node) (best : Nat) (bestV : Int) (i : Nat),
      g best = bestV →
      (∀ j, (hj : j < l.length) → g (i + j) = (l.get ⟨j, hj⟩).value) →
      (BinomialHeap.bestOf l best bestV i = best ∨
        (i ≤ BinomialHeap.bestOf l best bestV i ∧
         BinomialHeap.bestOf l best bestV i < i + l.length)) ∧
      bestV ≤ g (BinomialHeap.bestOf l best bestV i) ∧
      ∀ j, (hj : j < l.length) →
        (l.get ⟨j, hj⟩).value ≤ g (BinomialHeap.bestOf l best bestV i) := by
  intro l
  induction l with
  | nil =>
    intro best bestV i hbest _
    refine ⟨Or.inl rfl, ?_, ?_⟩
    · rw [BinomialHeap.bestOf, hbest]
    · intro j hj; simp at hj
  | cons n t ih =>
    intro best bestV i hbest hidx
    have hn : g i = n.value := by
      have := hidx 0 (by simp)
      simpa using this
    by_cases hgt : n.value > bestV
    · have hrec := ih i n.value (i + 1) hn (fun j hj => by
        have h2 := hidx (j + 1) (by simpa using Nat.succ_lt_succ hj)
        have he : i + (j + 1) = i + 1 + j := by omega
        rw [he] at h2
        simpa using h2)
      rw [BinomialHeap.bestOf, if_pos hgt]
      refine ⟨?_, ?_, ?_⟩
      · right
        rcases hrec.1 with h | h
        · rw [h]; simp
        · exact ⟨by omega, by simp only [List.length_cons]; omega⟩
      · exact le_trans (le_of_lt hgt) hrec.2.1
      · intro j hj
        cases j with
        | zero => simpa [← hn] using hrec.2.1
        | succ k =>
          have hk : k < t.length := by simpa using hj
          have := hrec.2.2 k hk
          simpa using this
    · have hrec := ih best bestV (i + 1) hbest (fun j hj => by
        have h2 := hidx (j + 1) (by simpa using Nat.succ_lt_succ hj)
        have he : i + (j + 1) = i + 1 + j := by omega
        rw [he] at h2
        simpa using h2)
      rw [BinomialHeap.bestOf, if_neg hgt]
      refine ⟨?_, hrec.2.1, ?_⟩
      · rcases hrec.1 with h | h
        · exact Or.inl h
        · right; refine ⟨by omega, by simp only [List.length_cons]; omega⟩
      · intro j hj
        cases j with
        | zero =>
          have : n.value ≤ bestV := not_lt.mp hgt
          simpa using le_trans this hrec.2.1
        | succ k =>
          have hk : k < t.length := by simpa using hj
          have := hrec.2.2 k hk
          simpa using this

/-! ### Removing an element by index -/

theorem mvals_eraseIdx (d : Node) :
    ∀ (l : List Node) (i : Nat), i < l.length →
      mvals l = (vals (l.getD i d) : Multiset Int) + mvals (l.eraseIdx i) := by
  intro l
  induction l with
  | nil => intro i h; simp at h
  | cons c cs ih =>
    intro i h
    cases i with
    | zero => simp [mvals_cons]
    | succ j =>
      have hj : j < cs.length := by simpa using h
      simp only [List.getD_cons_succ, List.eraseIdx_cons_succ, mvals_cons, ih j hj]
      abel

theorem mem_of_mem_eraseIdx {l : List Node} {i : Nat} {n : Node}
    (h : n ∈ l.eraseIdx i) : n ∈ l := by
  exact List.eraseIdx_subset _ _ h

/-! ### Children of well-behaved nodes -/

theorem orderedL_mem (v : Int) (cs : List Node) (h : orderedL v cs = true) :
    ∀ c ∈ cs, ordered c = true ∧ c.value ≤ v := by
  induction cs with
  | nil => simp
  | cons c cs ih =>
    simp only [orderedL_cons, Bool.and_eq_true, decide_eq_true_eq] at h
    intro d hd
    rcases List.mem_cons.mp hd with rfl | hd
    · exact ⟨h.1.2, h.1.1⟩
    · exact ih h.2 d hd

theorem ordered_children (n : Node) (h : ordered n = true) :
    ∀ c ∈ n.nodes, ordered c = true := by
  cases n with
  | mk r v cs =>
    simp only [ordered_mk] at h
    simp only [Node.nodes_mk]
    exact fun c hc => (orderedL_mem v cs h c hc).1

theorem shaped_children (n : Node) (h : shaped n = true) :
    ∀ c ∈ n.nodes, shaped c = true := by
  cases n with
  | mk r v cs =>
    simp only [shaped_mk, Bool.and_eq_true] at h
    simp only [Node.nodes_mk]
    exact fun c hc => (shapedL_iff cs).mp h.2 c hc

/-! ### Specification of pop -/

theorem popIdx_spec (h0 : Node) (rest : List Node) :
    BinomialHeap.bestOf rest 0 h0.value 1 < (h0 :: rest).length ∧
    ∀ n ∈ h0 :: rest,
      n.value ≤
        ((h0 :: rest).getD (BinomialHeap.bestOf rest 0 h0.value 1) ⟨0, 0, []⟩).value := by
  have hidx : ∀ j, (hj : j < rest.length) →
      (fun k => ((h0 :: rest).getD k ⟨0, 0, []⟩).value) (1 + j) =
        (rest.get ⟨j, hj⟩).value := by
    intro j hj
    have he : 1 + j = j + 1 := by omega
    rw [he]
    simp only [List.getD_cons_succ]
    rw [getD_of_lt rest _ j hj]
  have hspec := bestOf_spec (fun k => ((h0 :: rest).getD k ⟨0, 0, []⟩).value)
    rest 0 h0.value 1 rfl hidx
  obtain ⟨hb, hv, hall⟩ := hspec
  constructor
  · rcases hb with h | h
    · rw [h]; simp
    · simp only [List.length_cons]; omega
  · intro n hn
    rcases List.mem_cons.mp hn with rfl | hn
    · exact hv
    · obtain ⟨⟨j, hj⟩, hget⟩ := List.mem_iff_get.mp hn
      rw [← hget]
      exact hall j hj

theorem pop_empty : BinomialHeap.pop ⟨[]⟩ = (none, ⟨[]⟩) := rfl

theorem pop_cons_eq (x : Node) (xs : List Node) (h0 : Node) (rest : List Node)
    (hfr : (x :: xs).reverse = h0 :: rest) :
    BinomialHeap.pop ⟨x :: xs⟩ =
      (some (((h0 :: rest).getD (BinomialHeap.bestOf rest 0 h0.value 1)
          ⟨0, 0, []⟩).value),
       ⟨mergeNodes
          (((h0 :: rest).eraseIdx (BinomialHeap.bestOf rest 0 h0.value 1)).reverse)
          (((h0 :: rest).getD (BinomialHeap.bestOf rest 0 h0.value 1)
            ⟨0, 0, []⟩).nodes)⟩) := by
  simp only [BinomialHeap.pop]
  rw [hfr]

/-- Popping a non-empty heap returns some value m; m is removed from the
value multiset; if all trees were heap-ordered then m is the maximum
value and order is preserved; binomial shape is preserved as well. -/
theorem pop_spec (x : Node) (xs : List Node) :
    ∃ m hp2, BinomialHeap.pop ⟨x :: xs⟩ = (some m, hp2) ∧
      mvals (x :: xs) = m ::ₘ mvals hp2.heads ∧
      ((∀ n ∈ x :: xs, ordered n = true) →
        (∀ w ∈ mvals (x :: xs), w ≤ m) ∧ ∀ n ∈ hp2.heads, ordered n = true) ∧
      ((∀ n ∈ x :: xs, shaped n = true) → ∀ n ∈ hp2.heads, shaped n = true) := by
  obtain ⟨h0, rest, hfr⟩ : ∃ h0 rest, (x :: xs).reverse = h0 :: rest := by
    cases hr : (x :: xs).reverse with
    | nil =>
      exfalso
      have := congrArg List.length hr
      simp at this
    | cons a b => exact ⟨a, b, rfl⟩
  obtain ⟨hlt, hmax⟩ := popIdx_spec h0 rest
  set idx := BinomialHeap.bestOf rest 0 h0.value 1 with hidx
  set nd := (h0 :: rest).getD idx ⟨0, 0, []⟩ with hnd
  have hnd_get : nd = (h0 :: rest).get ⟨idx, hlt⟩ := getD_of_lt _ _ idx hlt
  have hnd_mem : nd ∈ h0 :: rest := by
    rw [hnd_get]; exact List.get_mem _ _ _
  have hmem_rev : ∀ n, n ∈ h0 :: rest → n ∈ x :: xs := by
    intro n hn
    rw [← hfr] at hn
    exact List.mem_reverse.mp hn
  have hmemE : ∀ n, n ∈ ((h0 :: rest).eraseIdx idx).reverse → n ∈ x :: xs := by
    intro n hn
    exact hmem_rev n (mem_of_mem_eraseIdx (List.mem_reverse.mp hn))
  refine ⟨nd.value, ⟨mergeNodes (((h0 :: rest).eraseIdx idx).reverse) nd.nodes⟩,
    pop_cons_eq x xs h0 rest hfr, ?_, ?_, ?_⟩
  · -- value accounting
    have h1 : mvals (x :: xs) = mvals (h0 :: rest) := by
      rw [← hfr, mvals_reverse]
    have h2 := mvals_eraseIdx ⟨0, 0, []⟩ (h0 :: rest) idx hlt
    have h3 : (vals nd : Multiset Int) =
        nd.value ::ₘ (valsL nd.nodes : Multiset Int) := by
      cases nd with
      | mk r v cs => simp [← Multiset.cons_coe]
    show mvals (x :: xs) =
      nd.value ::ₘ mvals (mergeNodes (((h0 :: rest).eraseIdx idx).reverse) nd.nodes)
    rw [h1, h2, h3, mergeNodes_mvals, mvals_reverse, Multiset.cons_add]
    rw [add_comm ((valsL nd.nodes : Multiset Int))
      (mvals ((h0 :: rest).eraseIdx idx))]
    rfl
  · -- maximality and order preservation
    intro hord
    constructor
    · intro w hw
      have hw2 : w ∈ valsL (x :: xs) := by
        simpa [mvals] using hw
      obtain ⟨n, hn, hle⟩ := valsL_le_root (x :: xs) hord w hw2
      have hnf : n ∈ h0 :: rest := by
        rw [← hfr]
        exact List.mem_reverse.mpr hn
      exact le_trans hle (hmax n hnf)
    · show ∀ n ∈ mergeNodes (((h0 :: rest).eraseIdx idx).reverse) nd.nodes,
        ordered n = true
      refine mergeNodes_ordered _ _ ?_ ?_
      · exact fun n hn => hord n (hmemE n hn)
      · exact ordered_children nd (hord nd (hmem_rev nd hnd_mem))
  · -- shape preservation
    intro hsh
    show ∀ n ∈ mergeNodes (((h0 :: rest).eraseIdx idx).reverse) nd.nodes,
      shaped n = true
    refine mergeNodes_shaped _ _ ?_ ?_
    · exact fun n hn => hsh n (hmemE n hn)
    · exact shaped_children nd (hsh nd (hmem_rev nd hnd_mem))

/-! ### Specifications of push and merge -/

theorem push_mvals (hp : BinomialHeap) (v : Int) :
    mvals (hp.push v).heads = v ::ₘ mvals hp.heads := by
  show mvals (mergeNodes hp.heads [⟨0, v, []⟩]) = v ::ₘ mvals hp.heads
  rw [mergeNodes_mvals]
  have : mvals [(⟨0, v, []⟩ : Node)] = {v} := rfl
  rw [this, add_comm, Multiset.singleton_add]

theorem singleton_ordered (v : Int) : ordered ⟨0, v, []⟩ = true := by simp

theorem singleton_shaped (v : Int) : shaped ⟨0, v, []⟩ = true := by simp

theorem push_ordered (hp : BinomialHeap) (v : Int)
    (h : ∀ n ∈ hp.heads, ordered n = true) :
    ∀ n ∈ (hp.push v).heads, ordered n = true := by
  show ∀ n ∈ mergeNodes hp.heads [⟨0, v, []⟩], ordered n = true
  refine mergeNodes_ordered _ _ h ?_
  intro n hn
  rcases List.mem_cons.mp hn with rfl | hn
  · exact singleton_ordered v
  · simp at hn

theorem push_shaped (hp : BinomialHeap) (v : Int)
    (h : ∀ n ∈ hp.heads, shaped n = true) :
    ∀ n ∈ (hp.push v).heads, shaped n = true := by
  show ∀ n ∈ mergeNodes hp.heads [⟨0, v, []⟩], shaped n = true
  refine mergeNodes_shaped _ _ h ?_
  intro n hn
  rcases List.mem_cons.mp hn with rfl | hn
  · exact singleton_shaped v
  · simp at hn

theorem merge_mvals (hp other : BinomialHeap) :
    mvals (hp.merge other).heads = mvals hp.heads + mvals other.heads :=
  mergeNodes_mvals hp.heads other.heads

theorem merge_ordered (hp other : BinomialHeap)
    (h1 : ∀ n ∈ hp.heads, ordered n = true)
    (h2 : ∀ n ∈ other.heads, ordered n = true) :
    ∀ n ∈ (hp.merge other).heads, ordered n = true :=
  mergeNodes_ordered hp.heads other.heads h1 h2

theorem merge_shaped (hp other : BinomialHeap)
    (h1 : ∀ n ∈ hp.heads, shaped n = true)
    (h2 : ∀ n ∈ other.heads, shaped n = true) :
    ∀ n ∈ (hp.merge other).heads, shaped n = true :=
  mergeNodes_shaped hp.heads other.heads h1 h2

theorem mvals_eq_zero (l : List Node) : mvals l = 0 ↔ l = [] := by
  rw [mvals, Multiset.coe_eq_zero, valsL_eq_nil]

/-! ### Draining a heap pops the values in sorted (descending) order -/

theorem popSeq_spec : ∀ (k : Nat) (hp : BinomialHeap),
    (∀ n ∈ hp.heads, ordered n = true) →
    Multiset.card (mvals hp.heads) = k →
    (popSeq k hp : Multiset Int) = mvals hp.heads ∧
      List.Sorted (· ≥ ·) (popSeq k hp) := by
  intro k
  induction k with
  | zero =>
    intro hp _ hcard
    have h0 : mvals hp.heads = 0 := Multiset.card_eq_zero.mp hcard
    simp [popSeq, h0]
  | succ k ih =>
    intro hp hord hcard
    cases hp with
    | mk heads =>
      cases heads with
      | nil => simp [mvals] at hcard
      | cons x xs =>
        obtain ⟨m, hp2, hpop, hmv, hcond, _⟩ := pop_spec x xs
        have hord2 := (hcond hord).2
        have hmax := (hcond hord).1
        have hcard2 : Multiset.card (mvals hp2.heads) = k := by
          rw [hmv] at hcard
          simpa using hcard
        obtain ⟨ihm, ihs⟩ := ih hp2 hord2 hcard2
        have hseq : popSeq (k + 1) ⟨x :: xs⟩ = m :: popSeq k hp2 := by
          rw [popSeq, hpop]
        rw [hseq]
        constructor
        · rw [← Multiset.cons_coe, ihm, hmv]
        · rw [List.sorted_cons]
          refine ⟨?_, ihs⟩
          intro b hb
          have hbm : b ∈ mvals hp2.heads := by
            rw [← ihm]
            exact hb
          have : b ∈ mvals (x :: xs) := by
            rw [hmv]
            exact Multiset.mem_cons_of_mem hbm
          exact hmax b this

/-- Pushing a list of values yields a heap whose multiset of values is
the input and whose trees are heap-ordered and binomial-shaped. -/
theorem pushAll_spec (vs : List Int) :
    mvals (pushAll vs).heads = (vs : Multiset Int) ∧
      (∀ n ∈ (pushAll vs).heads, ordered n = true) ∧
      (∀ n ∈ (pushAll vs).heads, shaped n = true) := by
  suffices h : ∀ (vs : List Int) (hp : BinomialHeap),
      (∀ n ∈ hp.heads, ordered n = true) →
      (∀ n ∈ hp.heads, shaped n = true) →
      mvals (vs.foldl BinomialHeap.push hp).heads = mvals hp.heads + (vs : Multiset Int) ∧
        (∀ n ∈ (vs.foldl BinomialHeap.push hp).heads, ordered n = true) ∧
        (∀ n ∈ (vs.foldl BinomialHeap.push hp).heads, shaped n = true) by
    have h2 := h vs BinomialHeap.new (by simp [BinomialHeap.new]) (by simp [BinomialHeap.new])
    simp only [pushAll]
    refine ⟨?_, h2.2.1, h2.2.2⟩
    rw [h2.1]
    simp [BinomialHeap.new, mvals]
  intro vs
  induction vs with
  | nil =>
    intro hp hord hsh
    exact ⟨by simp, hord, hsh⟩
  | cons v vs ih =>
    intro hp hord hsh
    have hord2 := push_ordered hp v hord
    have hsh2 := push_shaped hp v hsh
    obtain ⟨ihm, iho, ihs⟩ := ih (hp.push v) hord2 hsh2
    refine ⟨?_, iho, ihs⟩
    rw [List.foldl_cons, ihm, push_mvals, ← Multiset.cons_coe, Multiset.cons_add,
      Multiset.add_cons]

/-! ### len computes the sum of 2 to the rank over the roots -/

/-- The contribution of one root to len, exactly as written in the
source: one for rank 0, 2 << (rank - 1) otherwise. -/
def rootWeight (n : Node) : Nat :=
  match n.rank with
  | 0 => 1
  | x => 2 <<< (x - 1)

theorem rootWeight_eq_pow (n : Node) : rootWeight n = 2 ^ n.rank := by
  rw [rootWeight]
  cases hr : n.rank with
  | zero => rfl
  | succ k =>
    show 2 <<< (k + 1 - 1) = 2 ^ (k + 1)
    rw [Nat.shiftLeft_eq, Nat.add_sub_cancel, pow_succ]
    exact Nat.mul_comm 2 (2 ^ k)

theorem len_foldl_shift (l : List Node) :
    ∀ s : Nat,
      l.foldl (fun sz n => match n.rank with | 0 => sz + 1 | x => sz + (2 <<< (x - 1))) s =
        s + (l.map rootWeight).sum := by
  induction l with
  | nil => intro s; simp
  | cons n ns ih =>
    intro s
    rw [List.foldl_cons, ih]
    have hstep : (match n.rank with | 0 => s + 1 | x => s + (2 <<< (x - 1))) =
        s + rootWeight n := by
      rw [rootWeight]
      cases n.rank with
      | zero => rfl
      | succ k => rfl
    rw [hstep]
    simp [List.sum_cons]
    omega

theorem len_eq_sum_pow (hp : BinomialHeap) :
    hp.len = (hp.heads.map (fun n => 2 ^ n.rank)).sum := by
  rw [BinomialHeap.len, len_foldl_shift]
  have h1 : (hp.heads.reverse.map rootWeight).sum = (hp.heads.map rootWeight).sum := by
    rw [List.map_reverse, List.sum_reverse]
  have h2 : hp.heads.map rootWeight = hp.heads.map (fun n => 2 ^ n.rank) := by
    exact List.map_congr_left (fun n _ => rootWeight_eq_pow n)
  rw [Nat.zero_add, h1, h2]


theorem pow_list_sum (r : Nat) :
    ((List.range r).map (fun k => 2 ^ k)).sum + 1 = 2 ^ r := by
  induction r with
  | zero => simp
  | succ k ih =>
    rw [List.range_succ, List.map_append, List.sum_append, pow_succ]
    simp only [List.map_cons, List.map_nil, List.sum_cons, List.sum_nil]
    omega

mutual

theorem shaped_vals_length : ∀ (n : Node), shaped n = true →
    (vals n).length = 2 ^ n.rank
  | ⟨r, v, cs⟩ => by
    intro h
    simp only [shaped_mk, Bool.and_eq_true, decide_eq_true_eq] at h
    simp only [vals_mk, List.length_cons, Node.rank_mk]
    rw [shapedL_vals_length cs h.2]
    have hm : cs.map (fun c => 2 ^ c.rank) = (cs.map Node.rank).map (fun k => 2 ^ k) := by
      rw [List.map_map]
      rfl
    rw [hm, h.1, List.map_reverse, List.sum_reverse]
    exact pow_list_sum r

theorem shapedL_vals_length : ∀ (cs : List Node), shapedL cs = true →
    (valsL cs).length = (cs.map (fun c => 2 ^ c.rank)).sum
  | [] => by simp
  | c :: cs => by
    intro h
    simp only [shapedL_cons, Bool.and_eq_true] at h
    simp only [valsL_cons, List.length_append, List.map_cons, List.sum_cons]
    rw [shaped_vals_length c h.1, shapedL_vals_length cs h.2]

end

/-- On a forest of binomial-shaped trees, len equals the number of
stored values. -/
theorem len_eq_card (hp : BinomialHeap) (h : ∀ n ∈ hp.heads, shaped n = true) :
    hp.len = Multiset.card (mvals hp.heads) := by
  rw [len_eq_sum_pow]
  have hc : Multiset.card (mvals hp.heads) = (valsL hp.heads).length := by
    simp [mvals]
  rw [hc]
  have hs : shapedL hp.heads = true := (shapedL_iff hp.heads).mpr h
  rw [shapedL_vals_length hp.heads hs]

/-! ### Operation sequences (push, pop, merge of an independently built
heap), used to state the size accounting property -/

inductive Op : Type where
  | pushOp (v : Int) : Op
  | popOp : Op
  | mergeOp (ops : List Op) : Op

/-- Running a list of operations on a heap.  mergeOp os builds a second
heap from the empty heap by running os, then merges it in. -/
def runFrom (hp : BinomialHeap) (ops : List Op) : BinomialHeap :=
  match ops with
  | [] => hp
  | .pushOp v :: t => runFrom (hp.push v) t
  | .popOp :: t => runFrom (hp.pop).2 t
  | .mergeOp os :: t => runFrom (hp.merge (runFrom BinomialHeap.new os)) t
termination_by sizeOf ops
decreasing_by
  all_goals simp
  all_goals omega

/-- Total pushes of an operation list, including pushes that built
merged-in heaps. -/
def pushCount : List Op → Nat
  | [] => 0
  | .pushOp _ :: t => pushCount t + 1
  | .popOp :: t => pushCount t
  | .mergeOp os :: t => pushCount os + pushCount t

/-- Total pops that returned a value, including pops performed while
building merged-in heaps. -/
def succPopsFrom (hp : BinomialHeap) (ops : List Op) : Nat :=
  match ops with
  | [] => 0
  | .pushOp v :: t => succPopsFrom (hp.push v) t
  | .popOp :: t => (if (hp.pop).1.isSome then 1 else 0) + succPopsFrom (hp.pop).2 t
  | .mergeOp os :: t =>
    succPopsFrom BinomialHeap.new os +
      succPopsFrom (hp.merge (runFrom BinomialHeap.new os)) t
termination_by sizeOf ops
decreasing_by
  all_goals simp
  all_goals omega

/-! ### The min-first variant of src/main.rs (the parts the claims
need: new and peek) -/

namespace Main

/-- BinomialHeap::new from src/main.rs: no argument either. -/
def new : BinomialHeap := ⟨[]⟩

/-- Iterator::min over the mapped values. -/
def listMin : List Int → Option Int
  | [] => none
  | v :: t => some (t.foldl min v)

/-- BinomialHeap::peek from src/main.rs: the minimum root value. -/
def peek (hp : BinomialHeap) : Option Int :=
  listMin (hp.heads.reverse.map Node.value)

end Main

/-! ### A fuel-indexed version of mergeNodes.  The fuel is spent one
unit per recursive call; adequacy of fuel equal to the total number of
roots states precisely that every recursive call strictly decreases the
total root count. -/

def mergeNodesF : Nat → List Node → List Node → Option (List Node)
  | _, [], b => some b.reverse
  | _, a, [] => some a.reverse
  | 0, _ :: _, _ :: _ => none
  | fuel + 1, h1 :: as_, h2 :: bs =>
    if h1.rank = h2.rank then
      if (combine h1 h2).rank ≠ backRank as_ then
        if (combine h1 h2).rank ≠ backRank bs then
          (mergeNodesF fuel as_ bs).map (fun l => combine h1 h2 :: l.reverse)
        else (mergeNodesF fuel (combine h1 h2 :: as_) bs).map (fun l => l.reverse)
      else
        if (combine h1 h2).rank ≠ backRank bs then
          (mergeNodesF fuel as_ (combine h1 h2 :: bs)).map (fun l => l.reverse)
        else (mergeNodesF fuel as_ bs).map (fun l => combine h1 h2 :: l.reverse)
    else if h1.rank < h2.rank then
      (mergeNodesF fuel as_ (h2 :: bs)).map (fun l => h1 :: l.reverse)
    else
      (mergeNodesF fuel bs (h1 :: as_)).map (fun l => h2 :: l.reverse)

/-- Any fuel at least the total number of roots suffices: each
recursive call of merge_nodes consumes one unit and strictly decreases
the total root count. -/
theorem mergeNodesF_complete : ∀ (a b : List Node) (fuel : Nat),
    a.length + b.length ≤ fuel → mergeNodesF fuel a b = some (mergeNodes a b) := by
  intro a b
  induction a, b using mergeNodes.induct with
  | case1 b =>
    intro fuel _
    rw [mergeNodes_nil_left]
    cases fuel <;> cases b <;> rfl
  | case2 a h =>
    intro fuel _
    rw [mergeNodes_nil_right]
    cases a with
    | nil => cases fuel <;> rfl
    | cons x xs => cases fuel <;> rfl
  | case3 h1 as_ h2 bs heq merged r ra rb hra hrb ih =>
    intro fuel hfuel
    cases fuel with
    | zero => simp at hfuel
    | succ f =>
      have hf : as_.length + bs.length ≤ f := by
        simp only [List.length_cons] at hfuel
        omega
      rw [mergeNodes_cons_cons, if_pos heq,
          if_pos (show (combine h1 h2).rank ≠ backRank as_ from hra),
          if_pos (show (combine h1 h2).rank ≠ backRank bs from hrb)]
      simp only [mergeNodesF, if_pos heq]
      rw [if_pos (show (combine h1 h2).rank ≠ backRank as_ from hra),
          if_pos (show (combine h1 h2).rank ≠ backRank bs from hrb),
          ih f hf]
      rfl
  | case4 h1 as_ h2 bs heq merged r ra rb hra hrb ih =>
    intro fuel hfuel
    cases fuel with
    | zero => simp at hfuel
    | succ f =>
      have hf : (combine h1 h2 :: as_).length + bs.length ≤ f := by
        simp only [List.length_cons] at hfuel ⊢
        omega
      rw [mergeNodes_cons_cons, if_pos heq,
          if_pos (show (combine h1 h2).rank ≠ backRank as_ from hra),
          if_neg (show ¬(combine h1 h2).rank ≠ backRank bs from hrb)]
      simp only [mergeNodesF, if_pos heq]
      rw [if_pos (show (combine h1 h2).rank ≠ backRank as_ from hra),
          if_neg (show ¬(combine h1 h2).rank ≠ backRank bs from hrb),
          ih f hf]
      rfl
  | case5 h1 as_ h2 bs heq merged r ra rb hra hrb ih =>
    intro fuel hfuel
    cases fuel with
    | zero => simp at hfuel
    | succ f =>
      have hf : as_.length + (combine h1 h2 :: bs).length ≤ f := by
        simp only [List.length_cons] at hfuel ⊢
        omega
      rw [mergeNodes_cons_cons, if_pos heq,
          if_neg (show ¬(combine h1 h2).rank ≠ backRank as_ from hra),
          if_pos (show (combine h1 h2).rank ≠ backRank bs from hrb)]
      simp only [mergeNodesF, if_pos heq]
      rw [if_neg (show ¬(combine h1 h2).rank ≠ backRank as_ from hra),
          if_pos (show (combine h1 h2).rank ≠ backRank bs from hrb),
          ih f hf]
      rfl
  | case6 h1 as_ h2 bs heq merged r ra rb hra hrb ih =>
    intro fuel hfuel
    cases fuel with
    | zero => simp at hfuel
    | succ f =>
      have hf : as_.length + bs.length ≤ f := by
        simp only [List.length_cons] at hfuel
        omega
      rw [mergeNodes_cons_cons, if_pos heq,
          if_neg (show ¬(combine h1 h2).rank ≠ backRank as_ from hra),
          if_neg (show ¬(combine h1 h2).rank ≠ backRank bs from hrb)]
      simp only [mergeNodesF, if_pos heq]
      rw [if_neg (show ¬(combine h1 h2).rank ≠ backRank as_ from hra),
          if_neg (show ¬(combine h1 h2).rank ≠ backRank bs from hrb),
          ih f hf]
      rfl
  | case7 h1 as_ h2 bs hne hlt ih =>
    intro fuel hfuel
    cases fuel with
    | zero => simp at hfuel
    | succ f =>
      have hf : as_.length + (h2 :: bs).length ≤ f := by
        simp only [List.length_cons] at hfuel ⊢
        omega
      rw [mergeNodes_cons_cons, if_neg hne, if_pos hlt]
      simp only [mergeNodesF, if_neg hne, if_pos hlt]
      rw [ih f hf]
      rfl
  | case8 h1 as_ h2 bs hne hge ih =>
    intro fuel hfuel
    cases fuel with
    | zero => simp at hfuel
    | succ f =>
      have hf : bs.length + (h1 :: as_).length ≤ f := by
        simp only [List.length_cons] at hfuel ⊢
        omega
      rw [mergeNodes_cons_cons, if_neg hne, if_neg hge]
      simp only [mergeNodesF, if_neg hne, if_neg hge]
      rw [ih f hf]
      rfl

/-! ### Fixture binomial trees used in concrete counterexamples -/

/-- A rank-0 binomial tree. -/
def t0 : Node := ⟨0, 0, []⟩

/-- A rank-1 binomial tree. -/
def t1 : Node := ⟨1, 0, [t0]⟩

/-- A rank-2 binomial tree (children back-first: ranks 1, 0). -/
def t2 : Node := ⟨2, 0, [t1, t0]⟩

/-- A rank-3 binomial tree (children back-first: ranks 2, 1, 0). -/
def t3 : Node := ⟨3, 0, [t2, t1, t0]⟩

/-! ### Size accounting along operation sequences -/

theorem runFrom_spec : ∀ (hp : BinomialHeap) (ops : List Op),
    (∀ n ∈ hp.heads, shaped n = true) →
    (∀ n ∈ (runFrom hp ops).heads, shaped n = true) ∧
      Multiset.card (mvals (runFrom hp ops).heads) + succPopsFrom hp ops =
        Multiset.card (mvals hp.heads) + pushCount ops := by
  intro hp ops
  induction hp, ops using runFrom.induct with
  | case1 hp =>
    intro h
    rw [runFrom]
    exact ⟨h, by rw [succPopsFrom, pushCount]⟩
  | case2 hp v t ih =>
    intro h
    obtain ⟨ihs, ihc⟩ := ih (push_shaped hp v h)
    rw [runFrom, succPopsFrom, pushCount]
    refine ⟨ihs, ?_⟩
    rw [ihc, push_mvals]
    simp only [Multiset.card_cons]
    omega
  | case3 hp t ih =>
    intro h
    cases hp with
    | mk heads =>
      cases hh : heads with
      | nil =>
        subst hh
        have hpe : BinomialHeap.pop ⟨[]⟩ = (none, ⟨[]⟩) := pop_empty
        obtain ⟨ihs, ihc⟩ := ih (by rw [hpe]; exact h)
        rw [runFrom, succPopsFrom, pushCount, hpe] at *
        simp only [Option.isSome_none, Bool.false_eq_true, if_false] at *
        exact ⟨ihs, by omega⟩
      | cons x xs =>
        subst hh
        obtain ⟨m, hp2, hpop, hmv, _, hshp⟩ := pop_spec x xs
        obtain ⟨ihs, ihc⟩ := ih (by rw [hpop]; exact hshp h)
        rw [runFrom, succPopsFrom, pushCount, hpop] at *
        simp only [Option.isSome_some, if_true] at *
        refine ⟨ihs, ?_⟩
        rw [hmv] at *
        simp only [Multiset.card_cons] at *
        omega
  | case4 hp os t ih1 ih2 =>
    intro h
    obtain ⟨ih1s, ih1c⟩ := ih1 (by simp [BinomialHeap.new])
    obtain ⟨ih2s, ih2c⟩ :=
      ih2 (merge_shaped hp (runFrom BinomialHeap.new os) h ih1s)
    rw [runFrom, succPopsFrom, pushCount]
    refine ⟨ih2s, ?_⟩
    have hmc : Multiset.card (mvals (hp.merge (runFrom BinomialHeap.new os)).heads) =
        Multiset.card (mvals hp.heads) +
          Multiset.card (mvals (runFrom BinomialHeap.new os).heads) := by
      rw [merge_mvals]
      simp
    have hnew : Multiset.card (mvals BinomialHeap.new.heads) = 0 := by
      simp [BinomialHeap.new, mvals]
    omega

/-! ### pop returns the same value peek reports -/

theorem pop_fst_eq_peek (hp : BinomialHeap) : (hp.pop).1 = hp.peek := by
  cases hp with
  | mk heads =>
    cases heads with
    | nil => rfl
    | cons x xs =>
      obtain ⟨h0, rest, hfr⟩ : ∃ h0 rest, (x :: xs).reverse = h0 :: rest := by
        cases hr : (x :: xs).reverse with
        | nil =>
          exfalso
          have := congrArg List.length hr
          simp at this
        | cons a b => exact ⟨a, b, rfl⟩
      obtain ⟨hlt, hmax⟩ := popIdx_spec h0 rest
      set idx := BinomialHeap.bestOf rest 0 h0.value 1 with hidx
      set nd := (h0 :: rest).getD idx ⟨0, 0, []⟩ with hnd
      have hnd_mem : nd ∈ h0 :: rest := by
        rw [hnd, getD_of_lt _ _ idx hlt]
        exact List.get_mem _ _ _
      rw [pop_cons_eq x xs h0 rest hfr]
      show some nd.value = BinomialHeap.peek ⟨x :: xs⟩
      rw [BinomialHeap.peek, hfr, List.map_cons]
      obtain ⟨m, hm, hmem, hub⟩ := listMax_spec h0.value (rest.map Node.value)
      rw [hm]
      congr 1
      have h1 : nd.value ≤ m := by
        refine hub nd.value ?_
        rcases List.mem_cons.mp hnd_mem with h | h
        · rw [h]; exact List.mem_cons_self _ _
        · exact List.mem_cons_of_mem _ (List.mem_map_of_mem Node.value h)
      have h2 : m ≤ nd.value := by
        rcases List.mem_cons.mp hmem with h | h
        · rw [h]; exact hmax h0 (List.mem_cons_self _ _)
        · obtain ⟨n, hn, hv⟩ := List.mem_map.mp h
          rw [← hv]
          exact hmax n (List.mem_cons_of_mem _ hn)
      exact le_antisymm h1 h2

/-! ### pop and peek are none exactly on the empty heap -/

theorem pop_none_iff (hp : BinomialHeap) :
    (hp.pop).1 = none ↔ mvals hp.heads = 0 := by
  cases hp with
  | mk heads =>
    cases heads with
    | nil => simp [pop_empty, mvals]
    | cons x xs =>
      obtain ⟨m, hp2, hpop, hmv, _, _⟩ := pop_spec x xs
      rw [hpop]
      constructor
      · intro h
        simp at h
      · intro h
        rw [hmv] at h
        simp at h

theorem peek_none_iff (hp : BinomialHeap) :
    hp.peek = none ↔ mvals hp.heads = 0 := by
  cases hp with
  | mk heads =>
    cases heads with
    | nil => simp [BinomialHeap.peek, mvals]
    | cons x xs =>
      obtain ⟨h0, rest, hfr⟩ : ∃ h0 rest, (x :: xs).reverse = h0 :: rest := by
        cases hr : (x :: xs).reverse with
        | nil =>
          exfalso
          have := congrArg List.length hr
          simp at this
        | cons a b => exact ⟨a, b, rfl⟩
      rw [BinomialHeap.peek, hfr, List.map_cons]
      obtain ⟨m, hm, _, _⟩ := listMax_spec h0.value (rest.map Node.value)
      rw [hm]
      constructor
      · intro h
        simp at h
      · intro h
        rw [mvals_eq_zero] at h
        simp at h

/-- Draining a heap: popping as many times as it holds values. -/
def drain (hp : BinomialHeap) : List Int :=
  popSeq (Multiset.card (mvals hp.heads)) hp

/-! ### The claims -/

/-- C1: for every sequence of n pushes followed by n pops on a heap
built from empty, the popped sequence is the pushed values sorted by
the heap ordering of src/lib.rs (descending, a max-first heap),
independent of the push order. -/
theorem binomial_order_property (vs : List Int) :
    (popSeq vs.length (pushAll vs)).Perm vs ∧
    List.Sorted (· ≥ ·) (popSeq vs.length (pushAll vs)) ∧
    ∀ ws : List Int, ws.Perm vs →
      popSeq ws.length (pushAll ws) = popSeq vs.length (pushAll vs) := by
  obtain ⟨hm, hord, _⟩ := pushAll_spec vs
  have hcard : Multiset.card (mvals (pushAll vs).heads) = vs.length := by
    rw [hm]
    simp
  obtain ⟨hms, hsort⟩ := popSeq_spec vs.length (pushAll vs) hord hcard
  have hperm : (popSeq vs.length (pushAll vs)).Perm vs := by
    have hcc : (popSeq vs.length (pushAll vs) : Multiset Int) = (vs : Multiset Int) := by
      rw [hms, hm]
    exact Multiset.coe_eq_coe.mp hcc
  refine ⟨hperm, hsort, ?_⟩
  intro ws hws
  obtain ⟨hm2, hord2, _⟩ := pushAll_spec ws
  have hcard2 : Multiset.card (mvals (pushAll ws).heads) = ws.length := by
    rw [hm2]
    simp
  obtain ⟨hms2, hsort2⟩ := popSeq_spec ws.length (pushAll ws) hord2 hcard2
  have hperm2 : (popSeq ws.length (pushAll ws)).Perm (popSeq vs.length (pushAll vs)) := by
    apply Multiset.coe_eq_coe.mp
    rw [hms, hms2, hm, hm2]
    exact Multiset.coe_eq_coe.mpr hws
  haveI : IsAntisymm Int (· ≥ ·) := ⟨fun a b x y => le_antisymm y x⟩
  exact List.eq_of_perm_of_sorted hperm2 hsort2 hsort

/-- C1 witness at a concrete input. -/
theorem binomial_order_property_witness :
    (popSeq 3 (pushAll [1, 3, 2])).Perm [1, 3, 2] ∧
    List.Sorted (· ≥ ·) (popSeq 3 (pushAll [1, 3, 2])) ∧
    popSeq 3 (pushAll [3, 2, 1]) = popSeq 3 (pushAll [1, 3, 2]) :=
  ⟨(binomial_order_property [1, 3, 2]).1,
   (binomial_order_property [1, 3, 2]).2.1,
   (binomial_order_property [1, 3, 2]).2.2 [3, 2, 1] (by decide)⟩

/-- C2: the claim that root ranks stay pairwise distinct after every
operation sequence is FALSE of the code: after pushing 1..7, popping
once (which returns 7) and pushing 8 and 9, the forest has front-to-back
root ranks (1, 2, 1), two roots of rank 1.  The trees themselves stay
binomial-shaped (mergeNodes_shaped above), only distinctness breaks. -/
theorem binomial_shape_bug :
    rootRanks (BinomialHeap.push (BinomialHeap.push
      ((pushAll [1, 2, 3, 4, 5, 6, 7]).pop).2 8) 9) = [1, 2, 1] ∧
    ¬ (rootRanks (BinomialHeap.push (BinomialHeap.push
      ((pushAll [1, 2, 3, 4, 5, 6, 7]).pop).2 8) 9)).Nodup := by
  have h : rootRanks (BinomialHeap.push (BinomialHeap.push
      ((pushAll [1, 2, 3, 4, 5, 6, 7]).pop).2 8) 9) = [1, 2, 1] := by
    simp +decide [pushAll, BinomialHeap.push, BinomialHeap.pop, BinomialHeap.new,
      rootRanks, mergeNodes_cons_cons, mergeNodes_nil_left, mergeNodes_nil_right,
      combine, backRank, BinomialHeap.bestOf]
  refine ⟨h, ?_⟩
  rw [h]
  decide

/-- C3: the claim that merging two rank-sorted duplicate-free forests
yields a rank-sorted duplicate-free forest is FALSE of the code: for
well-formed inputs with front-to-back ranks (1, 3) and (0, 2) the merge
returns front-to-back ranks (0, 3, 1, 2), which is not sorted.  The
output does hold exactly the union of the input values
(mergeNodes_mvals above). -/
theorem binomial_merge_sorted_bug :
    ([t3, t1].reverse.map Node.rank = [1, 3] ∧ shapedL [t3, t1] = true) ∧
    ([t2, t0].reverse.map Node.rank = [0, 2] ∧ shapedL [t2, t0] = true) ∧
    (mergeNodes [t3, t1] [t2, t0]).reverse.map Node.rank = [0, 3, 1, 2] ∧
    ¬ List.Sorted (· ≤ ·) ((mergeNodes [t3, t1] [t2, t0]).reverse.map Node.rank) := by
  have h : (mergeNodes [t3, t1] [t2, t0]).reverse.map Node.rank = [0, 3, 1, 2] := by
    simp +decide [t0, t1, t2, t3, mergeNodes_cons_cons, mergeNodes_nil_left,
      mergeNodes_nil_right, combine, backRank]
  refine ⟨⟨by decide, by decide⟩, ⟨by decide, by decide⟩, h, ?_⟩
  rw [h]
  decide

/-- C4: after any operation sequence from the empty heap, len plus the
number of value-returning pops equals the number of pushes across all
heaps ever merged in. -/
theorem binomial_size_property (ops : List Op) :
    (runFrom BinomialHeap.new ops).len + succPopsFrom BinomialHeap.new ops =
      pushCount ops := by
  obtain ⟨hs, hc⟩ := runFrom_spec BinomialHeap.new ops (by simp [BinomialHeap.new])
  rw [len_eq_card _ hs]
  have hnew : Multiset.card (mvals BinomialHeap.new.heads) = 0 := by
    simp [BinomialHeap.new, mvals]
  omega

/-- C5: draining the merge of two heaps yields, in the heap ordering
(descending), exactly the multiset union of what draining the two heaps
independently yields. -/
theorem binomial_merge_drain (A B : BinomialHeap)
    (hA : ∀ n ∈ A.heads, ordered n = true)
    (hB : ∀ n ∈ B.heads, ordered n = true) :
    (drain (A.merge B) : Multiset Int) =
      (drain A : Multiset Int) + (drain B : Multiset Int) ∧
    List.Sorted (· ≥ ·) (drain (A.merge B)) := by
  have hOrdM := merge_ordered A B hA hB
  obtain ⟨hmAB, hsAB⟩ := popSeq_spec _ (A.merge B) hOrdM rfl
  obtain ⟨hmA, _⟩ := popSeq_spec _ A hA rfl
  obtain ⟨hmB, _⟩ := popSeq_spec _ B hB rfl
  refine ⟨?_, hsAB⟩
  show (popSeq _ (A.merge B) : Multiset Int) = _
  rw [hmAB]
  show _ = (popSeq _ A : Multiset Int) + (popSeq _ B : Multiset Int)
  rw [hmA, hmB, merge_mvals]

/-- C5 witness at two concrete singleton heaps. -/
theorem binomial_merge_drain_witness :
    (drain ((⟨[⟨0, 5, []⟩]⟩ : BinomialHeap).merge ⟨[⟨0, 7, []⟩]⟩) : Multiset Int) =
      (drain ⟨[⟨0, 5, []⟩]⟩ : Multiset Int) + (drain ⟨[⟨0, 7, []⟩]⟩ : Multiset Int) ∧
    List.Sorted (· ≥ ·)
      (drain ((⟨[⟨0, 5, []⟩]⟩ : BinomialHeap).merge ⟨[⟨0, 7, []⟩]⟩)) :=
  binomial_merge_drain ⟨[⟨0, 5, []⟩]⟩ ⟨[⟨0, 7, []⟩]⟩ (by decide) (by decide)

/-- C6: pop and peek are absent exactly when the heap holds no values;
a fresh heap has len 0, is empty, and pop and peek are absent. -/
theorem binomial_empty_behavior :
    (∀ hp : BinomialHeap,
      (((hp.pop).1 = none) ↔ mvals hp.heads = 0) ∧
      ((hp.peek = none) ↔ mvals hp.heads = 0)) ∧
    BinomialHeap.new.len = 0 ∧ BinomialHeap.new.isEmpty = true ∧
    (BinomialHeap.new.pop).1 = none ∧ BinomialHeap.new.peek = none :=
  ⟨fun hp => ⟨pop_none_iff hp, peek_none_iff hp⟩, rfl, rfl, rfl, rfl⟩

/-- C7: a link of two equal-rank trees makes the loser the new last
child of the winner (push_back = cons in the back-first encoding),
increases the winner rank by one and changes nothing else; the winner
is the value-dominant tree and ties go to the first operand. -/
theorem binomial_link_spec (h1 h2 : Node) (hrk : h1.rank = h2.rank) :
    (h2.value ≤ h1.value → combine h1 h2 = ⟨h1.rank + 1, h1.value, h2 :: h1.nodes⟩) ∧
    (h1.value < h2.value → combine h1 h2 = ⟨h2.rank + 1, h2.value, h1 :: h2.nodes⟩) := by
  constructor
  · intro hle
    simp only [combine, if_pos (show h1.value ≥ h2.value from hle)]
  · intro hlt
    simp only [combine, if_neg (show ¬ h1.value ≥ h2.value from not_le.mpr hlt)]

/-- C7 witness: a tie, linking two equal-rank equal-value singletons,
goes to the first operand. -/
theorem binomial_link_spec_witness :
    combine ⟨0, 5, []⟩ ⟨0, 5, []⟩ = ⟨1, 5, [⟨0, 5, []⟩]⟩ :=
  (binomial_link_spec ⟨0, 5, []⟩ ⟨0, 5, []⟩ rfl).1 (by decide)

/-- C8 counterexample: new takes no ordering argument and stores none;
the very same heap value answers peek with the maximum under the
src/lib.rs functions and with the minimum under the src/main.rs
functions, so no ordering is fixed at construction. -/
theorem binomial_ordering_not_constructed :
    BinomialHeap.new = Main.new ∧
    pushAll [1, 2, 3] = ⟨[⟨0, 3, []⟩, ⟨1, 2, [⟨0, 1, []⟩]⟩]⟩ ∧
    BinomialHeap.peek ⟨[⟨0, 3, []⟩, ⟨1, 2, [⟨0, 1, []⟩]⟩]⟩ = some 3 ∧
    Main.peek ⟨[⟨0, 3, []⟩, ⟨1, 2, [⟨0, 1, []⟩]⟩]⟩ = some 2 := by
  refine ⟨rfl, ?_, rfl, rfl⟩
  simp +decide [pushAll, BinomialHeap.push, BinomialHeap.new, mergeNodes_cons_cons,
    mergeNodes_nil_left, mergeNodes_nil_right, combine, backRank]

/-- C8 amended: within src/lib.rs every comparison consistently uses
the hard-coded max-first ordering: pop returns exactly the value peek
reports, and a link winner carries the larger value. -/
theorem binomial_fixed_max_ordering :
    (∀ hp : BinomialHeap, (hp.pop).1 = hp.peek) ∧
    ∀ n1 n2 : Node, (combine n1 n2).value = max n1.value n2.value := by
  refine ⟨pop_fst_eq_peek, ?_⟩
  intro n1 n2
  by_cases h : n1.value ≥ n2.value
  · simp only [combine, if_pos h, Node.value_mk]
    exact (max_eq_left h).symm
  · simp only [combine, if_neg h, Node.value_mk]
    exact (max_eq_right (le_of_not_le h)).symm

/-- C9: for a well-formed forest, len is the sum of 2 to the rank over
the root list (the expression 2 << (rank - 1) equals 2 to the rank for
positive ranks, and a rank-0 root contributes 1). -/
theorem binomial_len_sum (hp : BinomialHeap)
    (h : ∀ n ∈ hp.heads, shaped n = true) :
    hp.len = (hp.heads.map (fun n => 2 ^ n.rank)).sum :=
  len_eq_sum_pow hp

/-- C9 witness on a two-root forest of ranks 1 and 0. -/
theorem binomial_len_sum_witness :
    (⟨[t1, t0]⟩ : BinomialHeap).len = ([t1, t0].map (fun n => 2 ^ n.rank)).sum :=
  binomial_len_sum ⟨[t1, t0]⟩ (by decide)

/-- C10: merge_nodes terminates because every recursive call strictly
decreases the total number of roots of the two inputs: fuel equal to
the total root count always suffices for the fuel-indexed version to
finish and agree with the function. -/
theorem binomial_merge_fuel (a b : List Node) :
    mergeNodesF (a.length + b.length) a b = some (mergeNodes a b) :=
  mergeNodesF_complete a b _ (le_refl _)

end Binomial
